import Mathlib

/-!
Verification of the counterd counting service.

This file gives a shallow embedding of the core of counterd — the key
codec, the ingress validation and key derivation, the snapshot pipeline
(`FilterKeys`, `Snapshotter.Run`), the redis adapter's key listing, the
HTTP dispatch for `PUT /v1/ingress`, and the monotonic counter upsert —
and proves the specification's claims about them.

Modelling conventions:
* Go strings are `List Char` (`Str`); Go's byte-wise string comparison
  agrees with the code-point lexicographic order on `List Char` for the
  ASCII data handled here, and UTF-8 byte order agrees with code-point
  order in general.
* `time.Time` is a civil date plus a seconds-of-day field, always in UTC
  (the code paths under study use UTC); durations are modelled in seconds.
* Go maps (`map[string]string`, counter tables) are modelled by canonical
  association lists kept sorted by key, which identifies extensionally
  equal maps.
* External collaborators (redis connection, JSON decoder, SQL engine) are
  modelled by the data they return; the redis scan is modelled by the list
  of pages the server hands back.
-/

/-- Go strings, as lists of characters. -/
abbrev Str := List Char

/-- Build a `Str` from a Lean string literal. -/
def strOf (s : String) : Str := s.toList

/-- strings.Split with a single-character separator: splits at every
occurrence of `sep`; the empty string yields one empty field. -/
def goSplit (sep : Char) : Str → List Str
  | [] => [[]]
  | c :: rest =>
    match goSplit sep rest with
    | [] => if c = sep then [[], []] else [[c]]
    | h :: t => if c = sep then [] :: h :: t else (c :: h) :: t

/-- Join fields with a separator character between consecutive fields
(the buffer-building loops in the source write fields this way). -/
def sepJoin (sep : Char) : List Str → Str
  | [] => []
  | [s] => s
  | s :: s2 :: rest => s ++ sep :: sepJoin sep (s2 :: rest)

/-- Pairs flattened to the alternating key/value segment list used in
counter keys. -/
def flattenPairs : List (Str × Str) → List Str
  | [] => []
  | (k, v) :: rest => k :: v :: flattenPairs rest

/-- The character for a single decimal digit. -/
def digitChar (n : Nat) : Char := Char.ofNat (48 + n)

/-- The numeric value of a decimal digit character. -/
def digitVal (c : Char) : Nat := c.toNat - 48

/-- Value of a non-empty all-digit string (the fixed-width number fields
of Go's reference time layouts). -/
def digitsToInt (s : Str) : Option Int :=
  if s ≠ [] ∧ s.all Char.isDigit then
    some (s.foldl (fun acc c => 10 * acc + (digitVal c : Int)) 0)
  else none

/-- Zero-pad a digit string on the left to width `w`. -/
def natPad (w : Nat) (ds : List Char) : List Char :=
  List.replicate (w - ds.length) '0' ++ ds

/-- Go's integer formatting with zero padding to a minimum width
(`appendInt`): sign first, then the zero-padded absolute value. -/
def goPadInt (w : Nat) (v : Int) : Str :=
  if v < 0 then '-' :: natPad w (Nat.toDigits 10 (-v).toNat)
  else natPad w (Nat.toDigits 10 v.toNat)

/-- The four-digit year field of layout `2006`: for years 0–9999 this is
exactly the four zero-padded decimal digits. -/
def pad4 (v : Int) : Str :=
  if 0 ≤ v ∧ v ≤ 9999 then
    [digitChar ((v / 1000) % 10).toNat, digitChar ((v / 100) % 10).toNat,
     digitChar ((v / 10) % 10).toNat, digitChar (v % 10).toNat]
  else goPadInt 4 v

/-- A two-digit zero-padded field (layouts `01` and `02`). -/
def pad2 (v : Int) : Str :=
  if 0 ≤ v ∧ v ≤ 99 then [digitChar ((v / 10) % 10).toNat, digitChar (v % 10).toNat]
  else goPadInt 2 v

/-- A Gregorian civil date, as Go's year/month/day components. -/
structure CivilDate where
  year : Int
  month : Int
  day : Int
deriving DecidableEq, Repr

/-- Go's `isLeap`. -/
def isLeapYear (y : Int) : Bool :=
  y % 4 = 0 && (y % 100 ≠ 0 || y % 400 = 0)

/-- Go's `daysIn`: the number of days of a month. -/
def daysInMonth (y m : Int) : Int :=
  if m = 2 then (if isLeapYear y then 29 else 28)
  else if m = 4 ∨ m = 6 ∨ m = 9 ∨ m = 11 then 30
  else 31

/-- A structurally valid civil date. -/
def validCivil (c : CivilDate) : Bool :=
  1 ≤ c.month ∧ c.month ≤ 12 ∧ 1 ≤ c.day ∧ c.day ≤ daysInMonth c.year c.month

/-- Day number of a civil date relative to the Unix epoch 1970-01-01
(the standard era-based Gregorian conversion, as performed inside Go's
`time` package when it normalizes an instant). -/
def dayNumber (c : CivilDate) : Int :=
  let y := if c.month ≤ 2 then c.year - 1 else c.year
  let era := y / 400
  let yoe := y - era * 400
  let mp := (c.month + 9) % 12
  let doy := (153 * mp + 2) / 5 + c.day - 1
  let doe := yoe * 365 + yoe / 4 - yoe / 100 + doy
  era * 146097 + doe - 719468

/-- Go's `Weekday`: 0 = Sunday … 6 = Saturday (1970-01-01 was a Thursday). -/
def weekdayOfDate (c : CivilDate) : Int := (dayNumber c + 4) % 7

/-- The previous civil day. -/
def predDay (c : CivilDate) : CivilDate :=
  if 1 < c.day then ⟨c.year, c.month, c.day - 1⟩
  else if 1 < c.month then ⟨c.year, c.month - 1, daysInMonth c.year (c.month - 1)⟩
  else ⟨c.year - 1, 12, 31⟩

/-- The next civil day. -/
def succDay (c : CivilDate) : CivilDate :=
  if c.day < daysInMonth c.year c.month then ⟨c.year, c.month, c.day + 1⟩
  else if c.month < 12 then ⟨c.year, c.month + 1, 1⟩
  else ⟨c.year + 1, 1, 1⟩

/-- Iterate a day-step function. -/
def iterDays (f : CivilDate → CivilDate) : Nat → CivilDate → CivilDate
  | 0, c => c
  | n + 1, c => iterDays f n (f c)

/-- Shift a civil date by a number of days. -/
def addDays (n : Int) (c : CivilDate) : CivilDate :=
  if 0 ≤ n then iterDays succDay n.toNat c else iterDays predDay (-n).toNat c

/-- A `time.Time` in UTC: a civil date plus the seconds elapsed within
that day (`0 ≤ sec < 86400` for the times the system constructs). -/
structure GoTime where
  date : CivilDate
  sec : Int
deriving DecidableEq, Repr

/-- A time whose date is valid and whose seconds field is in range. -/
def validTime (t : GoTime) : Bool :=
  validCivil t.date ∧ 0 ≤ t.sec ∧ t.sec < 86400

/-- Go's `Time.Add`: shift by a duration, given here in seconds, carrying
whole days into the date. -/
def timeAdd (d : Int) (t : GoTime) : GoTime :=
  let total := t.sec + d
  ⟨addDays (total / 86400) t.date, total % 86400⟩

/-- Go's `Time.Before` on UTC times: chronological comparison. -/
def timeBefore (a b : GoTime) : Bool :=
  if a.date.year ≠ b.date.year then a.date.year < b.date.year
  else if a.date.month ≠ b.date.month then a.date.month < b.date.month
  else if a.date.day ≠ b.date.day then a.date.day < b.date.day
  else a.sec < b.sec

/-- Go's `Time.After`. -/
def timeAfter (a b : GoTime) : Bool := timeBefore b a

/-- Go's zero `time.Time`: January 1 of year 1, 00:00:00 UTC (`IsZero`
tests for this value). -/
def zeroTime : GoTime := ⟨⟨1, 1, 1⟩, 0⟩

/-- The `2006-01-02` date format used for `day` and `week` keys. -/
def formatYMD (c : CivilDate) : Str :=
  pad4 c.year ++ '-' :: (pad2 c.month ++ '-' :: pad2 c.day)

/-- The `2006-01` date format used for `month` keys. -/
def formatYM (c : CivilDate) : Str :=
  pad4 c.year ++ '-' :: pad2 c.month

/-- Go's `time.Parse("2006-01-02", s)`: exactly ten characters, fixed
digit fields, dashes in place, month and day validated against the
calendar. The result is the midnight instant of the parsed date. -/
def parseYMD (s : Str) : Option CivilDate :=
  match s with
  | [y1, y2, y3, y4, s1, m1, m2, s2, d1, d2] =>
    if s1 = '-' ∧ s2 = '-' then
      match digitsToInt [y1, y2, y3, y4], digitsToInt [m1, m2], digitsToInt [d1, d2] with
      | some y, some m, some d =>
        if 1 ≤ m ∧ m ≤ 12 ∧ 1 ≤ d ∧ d ≤ daysInMonth y m then some ⟨y, m, d⟩ else none
      | _, _, _ => none
    else none
  | _ => none

/-- Go's `time.Parse("2006-01", s)`: year and month fields; the day
defaults to 1. -/
def parseYM (s : Str) : Option CivilDate :=
  match s with
  | [y1, y2, y3, y4, s1, m1, m2] =>
    if s1 = '-' then
      match digitsToInt [y1, y2, y3, y4], digitsToInt [m1, m2] with
      | some y, some m =>
        if 1 ≤ m ∧ m ≤ 12 then some ⟨y, m, 1⟩ else none
      | _, _ => none
    else none
  | _ => none

/-- A Go `map[string]string`, canonically represented as an association
list sorted strictly by key (so extensionally equal maps are equal). -/
abbrev AttrMap := List (Str × Str)

/-- Map insertion keeping the canonical sorted form; inserting an
existing key overwrites its value, as Go map assignment does. -/
def insertAttr (k v : Str) : AttrMap → AttrMap
  | [] => [(k, v)]
  | (k2, v2) :: rest =>
    if k < k2 then (k, v) :: (k2, v2) :: rest
    else if k = k2 then (k, v) :: rest
    else (k2, v2) :: insertAttr k v rest

/-- Map lookup. -/
def lookupAttr (k : Str) : AttrMap → Option Str
  | [] => none
  | (k2, v) :: rest => if k = k2 then some v else lookupAttr k rest

/-- Go's `m[k]` read, which yields the zero string when absent. -/
def lookupAttrD (k : Str) (m : AttrMap) : Str := (lookupAttr k m).getD []

/-- Build a map from key/value pairs inserted in order. -/
def buildAttrMap (l : List (Str × Str)) : AttrMap :=
  l.foldl (fun m kv => insertAttr kv.1 kv.2 m) []

/-- The map's key list is strictly ascending. -/
def attrKeysSorted (m : AttrMap) : Prop :=
  List.Chain' (fun a b => a.1 < b.1) m

/-- NullAttribute is automatically added to an event if no other
attributes are provided. -/
def NullAttribute : Str := strOf "null"

/-- KeySeperator segments K/V pairs and cannot be used in an attribute
key or value. -/
def KeySeperator : Char := ':'

/-- The day bit of the interval mask. -/
def DayInterval : Nat := 1

/-- The week bit of the interval mask. -/
def WeekInterval : Nat := 2

/-- The month bit of the interval mask. -/
def MonthInterval : Nat := 4

/-- The `day` interval tag. -/
def dayStr : Str := strOf "day"

/-- The `week` interval tag. -/
def weekStr : Str := strOf "week"

/-- The `month` interval tag. -/
def monthStr : Str := strOf "month"

/-- An ingress event (`IngressRequest`), after JSON decoding. -/
structure IngressRequest where
  id : Str
  date : GoTime
  attributes : AttrMap
deriving DecidableEq, Repr

/-- `IngressRequest.Validate`: reject a missing id, default a zero date
to the current time, inject the `null` sentinel attribute into an empty
attribute map, and reject a separator inside any attribute key or value.
`now` is the wall clock read by `time.Now().UTC()`. -/
def Validate (r : IngressRequest) (now : GoTime) : Except Str IngressRequest :=
  if r.id = [] then .error (strOf "missing request ID")
  else
    let r := if r.date = zeroTime then { r with date := now } else r
    if r.attributes = [] then .ok { r with attributes := [(NullAttribute, NullAttribute)] }
    else if r.attributes.any (fun kv => kv.1.contains KeySeperator || kv.2.contains KeySeperator) then
      .error (strOf "invalid use of colon in attribute key/value")
    else .ok r

/-- `ParseIngressRequest`: JSON decoding followed by validation. The
decoder is external; it is modelled by its outcome `decoded`. -/
def ParseIngressRequest (decoded : Except Str IngressRequest) (now : GoTime) :
    Except Str IngressRequest :=
  match decoded with
  | .error e => .error (strOf "failed to parse: " ++ e)
  | .ok req => Validate req now

/-- `DateIntervals`: the formatted date label for every enabled interval
bit. The `week` label is the formatted date of the event time shifted
back by `weekday` days (`-1 * 24 * time.Hour * weekday`). -/
def DateIntervals (intervals : Nat) (date : GoTime) : AttrMap :=
  let out : AttrMap := []
  let out := if intervals &&& DayInterval ≠ 0 then
      insertAttr dayStr (formatYMD date.date) out
    else out
  let out := if intervals &&& WeekInterval ≠ 0 then
      let weekday := weekdayOfDate date.date
      let aligned := timeAdd (-1 * 24 * 3600 * weekday) date
      insertAttr weekStr (formatYMD aligned.date) out
    else out
  let out := if intervals &&& MonthInterval ≠ 0 then
      insertAttr monthStr (formatYM date.date) out
    else out
  out

/-- `RequestCounterKeys`: sort the attribute keys ascending, serialize
the `k:v` pairs joined by the separator, and emit
`<interval>:<date>:<suffix>` for every interval label. -/
def RequestCounterKeys (intervals : AttrMap) (r : IngressRequest) : List Str :=
  let keys := List.insertionSort (· ≤ ·) (r.attributes.map Prod.fst)
  let pairs := keys.map (fun k => (k, lookupAttrD k r.attributes))
  let suffix := sepJoin KeySeperator (flattenPairs pairs)
  intervals.map (fun iv => iv.1 ++ KeySeperator :: (iv.2 ++ KeySeperator :: suffix))

/-- A decoded counter key (`ParsedKey`). -/
structure ParsedKey where
  raw : Str
  interval : Str
  date : GoTime
  attributes : AttrMap
  count : Int
deriving DecidableEq, Repr

/-- The distinct error kinds of the key codec. -/
inductive KeyErr
  | invalidFormat
  | invalidInterval (tag : Str)
  | invalidDate (s : Str)
  | attrsNotEven
deriving DecidableEq, Repr

/-- Date parsing of `ParseKey`: the interval tag selects the date
format; an unrecognized tag is an error. -/
def parseIntervalDate (interval : Str) (s : Str) : Except KeyErr GoTime :=
  if interval = dayStr then
    match parseYMD s with
    | some c => .ok ⟨c, 0⟩
    | none => .error (.invalidDate s)
  else if interval = weekStr then
    match parseYMD s with
    | some c => .ok ⟨c, 0⟩
    | none => .error (.invalidDate s)
  else if interval = monthStr then
    match parseYM s with
    | some c => .ok ⟨c, 0⟩
    | none => .error (.invalidDate s)
  else .error (.invalidInterval interval)

/-- The K/V loop of `ParseKey`: successive segment pairs inserted into
the attribute map. -/
def pairUp : List Str → AttrMap → AttrMap
  | [], m => m
  | [_], m => m
  | k :: v :: rest, m => pairUp rest (insertAttr k v m)

/-- `ParseKey`: split on the separator; require at least four segments;
parse the date by the interval tag; require an even number of remaining
segments; collect them as attribute pairs. -/
def ParseKey (raw : Str) : Except KeyErr ParsedKey :=
  match goSplit KeySeperator raw with
  | p0 :: p1 :: rest =>
    if rest.length < 2 then .error .invalidFormat
    else match parseIntervalDate p0 p1 with
      | .error e => .error e
      | .ok date =>
        if rest.length % 2 ≠ 0 then .error .attrsNotEven
        else .ok ⟨raw, p0, date, pairUp rest [], 0⟩
  | _ => .error .invalidFormat

/-- `ParseKeyList`: parse each key, collecting failures separately and
never aborting. -/
def ParseKeyList : List Str → List ParsedKey × List Str
  | [] => ([], [])
  | k :: rest =>
    let out := ParseKeyList rest
    match ParseKey k with
    | .ok p => (p :: out.1, out.2)
    | .error _ => (out.1, k :: out.2)

/-- `ParsedList.Keys`: the raw strings of a parsed key list. -/
def parsedRawKeys (l : List ParsedKey) : List Str := l.map (·.raw)

/-- The lifetime delta of `FilterKeys`' interval switch, in seconds;
`none` is the `panic` branch for an invalid interval. -/
def intervalDelta (interval : Str) : Option Int :=
  if interval = dayStr then some (24 * 3600)
  else if interval = weekStr then some (7 * 24 * 3600)
  else if interval = monthStr then some (31 * 24 * 3600)
  else none

/-- `FilterKeys` sorts the input keys into sets to be updated, deleted,
or ignored; `none` models the panic on an invalid interval. -/
def FilterKeys : List ParsedKey → GoTime → GoTime →
    Option (List ParsedKey × List ParsedKey × List ParsedKey)
  | [], _, _ => some ([], [], [])
  | key :: rest, updateThreshold, deleteThreshold =>
    match FilterKeys rest updateThreshold deleteThreshold with
    | none => none
    | some (update, ignore, delete) =>
      if timeBefore key.date deleteThreshold then some (update, ignore, key :: delete)
      else match intervalDelta key.interval with
        | none => none
        | some delta =>
          if timeAfter (timeAdd delta key.date) updateThreshold then
            some (key :: update, ignore, delete)
          else some (update, key :: ignore, delete)

/-- Sorted-set insertion for domain value sets. -/
def insertSortedDistinct (x : Str) : List Str → List Str
  | [] => [x]
  | y :: t => if x < y then x :: y :: t else if x = y then y :: t else y :: insertSortedDistinct x t

/-- Insertion into the canonical domain map. -/
def insertDomain (k v : Str) : List (Str × List Str) → List (Str × List Str)
  | [] => [(k, [v])]
  | (k2, vs) :: t =>
    if k < k2 then (k, [v]) :: (k2, vs) :: t
    else if k = k2 then (k2, insertSortedDistinct v vs) :: t
    else (k2, vs) :: insertDomain k v t

/-- `CollectDomain`: the union of attribute/value pairs across keys. -/
def CollectDomain (keys : List ParsedKey) : List (Str × List Str) :=
  keys.foldl (fun out key => key.attributes.foldl (fun o kv => insertDomain kv.1 kv.2 o) out) []

/-- RedisKeyPrefix in the source: the namespace prefixed to every key at
rest in the approximate store. -/
def redisNS : Str := strOf "counterd:"

/-- `PooledClient.ListKeys`: the cursor-based SCAN is modelled by the
pages of keys the store returns (each page already filtered by the
`counterd:*` MATCH pattern); the keys are deduplicated across pages in a
map and returned sorted. The source adds each scanned key to the map
as-is. -/
def scanListKeys (pages : List (List Str)) : List Str :=
  let keyMap := pages.flatten.foldl (fun acc k => if k ∈ acc then acc else acc ++ [k]) ([] : List Str)
  List.insertionSort (· ≤ ·) keyMap

/-- The outcomes of the collaborator calls a single `Snapshotter.Run`
makes: the redis list/delete/count calls and the two database upserts.
`Option Str` outcomes are `some e` for a non-nil Go error. -/
structure SnapEnv where
  listKeysRes : Except Str (List Str)
  deleteRes : Option Str
  getCountsRes : Except Str (List Int)
  upsertCountersRes : Option Str
  upsertDomainRes : Option Str
deriving Repr

/-- The externally visible calls `Run` dispatches, in order. -/
inductive SnapAction
  | deleteKeys (ks : List Str)
  | upsertCounters (rows : List ParsedKey)
  | upsertDomain (dom : List (Str × List Str))
deriving DecidableEq, Repr

/-- `Snapshotter.Run`, as a function of the collaborator outcomes: the
pair is the returned Go error (`none` = nil) and the trace of calls
made; the outer `Option` is `none` when `FilterKeys` panics. The
length-mismatch branch faithfully reproduces the source, which logs the
mismatch and executes `return err` at a point where `err` holds the nil
error of the successful `GetCounts` call. -/
def snapRun (env : SnapEnv) (now : GoTime) (updateThresholdCfg deleteThresholdCfg : Int) :
    Option (Option Str × List SnapAction) :=
  match env.listKeysRes with
  | .error e => some (some e, [])
  | .ok keys =>
    let parsed := (ParseKeyList keys).1
    let updateThreshold := timeAdd (-1 * updateThresholdCfg) now
    let deleteThreshold := timeAdd (-1 * deleteThresholdCfg) now
    match FilterKeys parsed updateThreshold deleteThreshold with
    | none => none
    | some (update, _ignore, delete) =>
      let acts := [SnapAction.deleteKeys (parsedRawKeys delete)]
      match env.deleteRes with
      | some e => some (some e, acts)
      | none =>
        match env.getCountsRes with
        | .error e => some (some e, acts)
        | .ok counters =>
          if counters.length ≠ update.length then
            some (none, acts)
          else
            let update2 := List.zipWith (fun p c => { p with count := c }) update counters
            let acts := acts ++ [SnapAction.upsertCounters update2]
            match env.upsertCountersRes with
            | some e => some (some e, acts)
            | none =>
              let acts := acts ++ [SnapAction.upsertDomain (CollectDomain update2)]
              match env.upsertDomainRes with
              | some e => some (some e, acts)
              | none => some (none, acts)

/-- A row of the `counters` table, keyed by (interval, date, attributes). -/
structure CounterRow where
  interval : Str
  date : GoTime
  attributes : AttrMap
  count : Int
deriving DecidableEq, Repr

/-- `MockCounter.Equal`: two rows address the same counter. -/
def rowMatches (a b : CounterRow) : Bool :=
  a.interval == b.interval && a.date == b.date && a.attributes == b.attributes

/-- The view of a parsed key written to the counters table. -/
def rowOfParsedKey (p : ParsedKey) : CounterRow :=
  ⟨p.interval, p.date, p.attributes, p.count⟩

/-- Upsert of one row: scan for a matching row and update it only
monotonically, else append — the semantics of both
`MockDatabaseClient.UpsertCounters` and the `ON CONFLICT … DO UPDATE SET
count = GREATEST(EXCLUDED.count, counters.count)` statement. -/
def upsertCounterRow (table : List CounterRow) (c : CounterRow) : List CounterRow :=
  match table with
  | [] => [c]
  | e :: rest =>
    if rowMatches e c then
      (if c.count > e.count then { e with count := c.count } else e) :: rest
    else e :: upsertCounterRow rest c

/-- `UpsertCounters`: upsert every update in order into the table. -/
def UpsertCounters (table : List CounterRow) (counters : List ParsedKey) : List CounterRow :=
  counters.foldl (fun t c => upsertCounterRow t (rowOfParsedKey c)) table

/-- The persisted count of a (interval, date, attributes) tuple: the
first matching row's count. -/
def lookupCounter (interval : Str) (date : GoTime) (attributes : AttrMap) :
    List CounterRow → Option Int
  | [] => none
  | e :: rest =>
    if rowMatches e ⟨interval, date, attributes, 0⟩ then some e.count
    else lookupCounter interval date attributes rest

/-- An HTTP response: status code and body (200 with an empty body when
a handler returns without writing). -/
structure HttpResponse where
  status : Nat
  body : Str
deriving DecidableEq, Repr

/-- `AuthConfig`. -/
structure AuthConfig where
  required : Bool
  tokens : List Str
deriving Repr

/-- `APIHandler.Ingress`: reject non-PUT methods; 400 with an
`Invalid Request:` body on decode/validation failure; otherwise derive
the interval labels and counter keys and dispatch the store update,
whose failure (`redisErr`) is only logged — the response stays 200 with
no body. -/
def Ingress (method : Str) (decoded : Except Str IngressRequest) (now : GoTime)
    (redisErr : Option Str) : HttpResponse :=
  if method ≠ strOf "PUT" then ⟨405, []⟩
  else match ParseIngressRequest decoded now with
    | .error e => ⟨400, strOf "Invalid Request: " ++ e⟩
    | .ok req =>
      let _keys := RequestCounterKeys
        (DateIntervals (DayInterval ||| WeekInterval ||| MonthInterval) req.date) req
      let _ := redisErr
      ⟨200, []⟩

/-- `NewHTTPHandler`'s auth wrapper around the `/v1/ingress` route:
when auth is required, a missing `Authorization` header, a header
without the `Bearer ` scheme, or a token outside the configured list
yields 403 before any routing; otherwise the request reaches
`APIHandler.Ingress`. The absent header is Go's empty string from
`Header.Get`. -/
def serveIngress (auth : Option AuthConfig) (authHeader : Str) (method : Str)
    (decoded : Except Str IngressRequest) (now : GoTime) (redisErr : Option Str) :
    HttpResponse :=
  match auth with
  | some cfg =>
    if cfg.required then
      if authHeader = [] then ⟨403, []⟩
      else if ¬ (strOf "Bearer ").isPrefixOf authHeader then ⟨403, []⟩
      else
        let token := authHeader.drop 7
        if cfg.tokens.any (fun t => t == token) then Ingress method decoded now redisErr
        else ⟨403, []⟩
    else Ingress method decoded now redisErr
  | none => Ingress method decoded now redisErr

/-- The lifetime delta a claim attaches to each interval: 24 h for
`day`, 7 d for `week`, 31 d for `month` (in seconds). -/
def specDelta (interval : Str) : Int :=
  if interval = dayStr then 24 * 3600
  else if interval = weekStr then 7 * 24 * 3600
  else 31 * 24 * 3600

/-- A key the snapshot run must update: not older than the delete
threshold, and still within its interval's lifetime of the update
threshold. -/
def isUpdateKey (updateThreshold deleteThreshold : GoTime) (k : ParsedKey) : Bool :=
  !timeBefore k.date deleteThreshold &&
    timeAfter (timeAdd (specDelta k.interval) k.date) updateThreshold

/-- A key the snapshot run must ignore: not older than the delete
threshold and past its interval's lifetime. -/
def isIgnoreKey (updateThreshold deleteThreshold : GoTime) (k : ParsedKey) : Bool :=
  !timeBefore k.date deleteThreshold &&
    !timeAfter (timeAdd (specDelta k.interval) k.date) updateThreshold

/-- A key the snapshot run must delete: dated before the delete
threshold. -/
def isDeleteKey (deleteThreshold : GoTime) (k : ParsedKey) : Bool :=
  timeBefore k.date deleteThreshold

/-- The three interval tags of the closed enumeration. -/
def validIntervalTag (s : Str) : Prop :=
  s = dayStr ∨ s = weekStr ∨ s = monthStr

/-- Whether a request clears the bearer-token gate: always when auth is
off, otherwise exactly when the header carries `Bearer ` plus a
configured token. -/
def authOk (auth : Option AuthConfig) (hdr : Str) : Bool :=
  match auth with
  | some cfg =>
    !cfg.required || ((strOf "Bearer ").isPrefixOf hdr && cfg.tokens.any (fun t => t == hdr.drop 7))
  | none => true

/-- The interval mask enabling exactly one interval tag. -/
def maskFor (interval : Str) : Nat :=
  if interval = dayStr then DayInterval
  else if interval = weekStr then WeekInterval
  else MonthInterval

/-- A valid parsed key in the sense of the round-trip claim: a
recognized interval; a date at the interval's anchor (midnight of a
valid, four-digit-year date; a Sunday for `week`; the first of the
month for `month`); a non-empty canonical attribute map whose keys and
values avoid the separator. -/
def validParsedKey (P : ParsedKey) : Prop :=
  validIntervalTag P.interval ∧
  P.date.sec = 0 ∧ validCivil P.date.date ∧
  0 ≤ P.date.date.year ∧ P.date.date.year ≤ 9999 ∧
  (P.interval = weekStr → weekdayOfDate P.date.date = 0) ∧
  (P.interval = monthStr → P.date.date.day = 1) ∧
  P.attributes ≠ [] ∧ attrKeysSorted P.attributes ∧
  ∀ kv ∈ P.attributes, KeySeperator ∉ kv.1 ∧ KeySeperator ∉ kv.2

theorem rowMatches_iff (a b : CounterRow) :
    rowMatches a b = true ↔ a.interval = b.interval ∧ a.date = b.date ∧ a.attributes = b.attributes := by
  simp [rowMatches, Bool.and_eq_true, and_assoc]

theorem rowMatches_setCount (e x : CounterRow) (c : Int) :
    rowMatches { e with count := c } x = rowMatches e x := by
  simp [rowMatches]

theorem lookupCounter_upsertCounterRow (t : List CounterRow) (row : CounterRow)
    (i : Str) (d : GoTime) (a : AttrMap) :
    lookupCounter i d a (upsertCounterRow t row) =
      if row.interval = i ∧ row.date = d ∧ row.attributes = a then
        match lookupCounter i d a t with
        | none => some row.count
        | some c => some (max c row.count)
      else lookupCounter i d a t := by
  induction t with
  | nil =>
    by_cases h : row.interval = i ∧ row.date = d ∧ row.attributes = a
    · obtain ⟨h1, h2, h3⟩ := h
      simp [upsertCounterRow, lookupCounter, rowMatches, h1, h2, h3]
    · have hb : rowMatches row ⟨i, d, a, 0⟩ = false := by
        rw [← Bool.not_eq_true, rowMatches_iff]
        exact h
      simp [upsertCounterRow, lookupCounter, hb, h]
  | cons e rest ih =>
    by_cases hrow : row.interval = i ∧ row.date = d ∧ row.attributes = a
    · obtain ⟨h1, h2, h3⟩ := hrow
      have hcongr : rowMatches e row = rowMatches e ⟨i, d, a, 0⟩ := by
        simp [rowMatches, h1, h2, h3]
      cases hm : rowMatches e ⟨i, d, a, 0⟩ with
      | true =>
        by_cases hc : row.count > e.count
        · simp only [upsertCounterRow, hcongr, hm, if_true, if_pos hc, lookupCounter,
            rowMatches_setCount, ite_true, if_pos (⟨h1, h2, h3⟩ :
              row.interval = i ∧ row.date = d ∧ row.attributes = a)]
          congr 1
          omega
        · simp only [upsertCounterRow, hcongr, hm, if_true, if_neg hc, lookupCounter,
            ite_true, if_pos (⟨h1, h2, h3⟩ :
              row.interval = i ∧ row.date = d ∧ row.attributes = a)]
          congr 1
          omega
      | false =>
        simp only [upsertCounterRow, hcongr, hm, Bool.false_eq_true, if_false, lookupCounter,
          if_pos (⟨h1, h2, h3⟩ : row.interval = i ∧ row.date = d ∧ row.attributes = a), ih]
    · have hne : rowMatches e row = true → rowMatches e ⟨i, d, a, 0⟩ = false := by
        intro hm
        rw [rowMatches_iff] at hm
        rw [← Bool.not_eq_true, rowMatches_iff]
        intro hc
        exact hrow ⟨hm.1.symm.trans hc.1, hm.2.1.symm.trans hc.2.1, hm.2.2.symm.trans hc.2.2⟩
      cases hm : rowMatches e row with
      | true =>
        by_cases hc : row.count > e.count
        · simp only [upsertCounterRow, hm, if_true, if_pos hc, lookupCounter,
            rowMatches_setCount, hne hm, Bool.false_eq_true, if_false, if_neg hrow]
        · simp only [upsertCounterRow, hm, if_true, if_neg hc, lookupCounter,
            hne hm, Bool.false_eq_true, if_false, if_neg hrow]
      | false =>
        simp only [upsertCounterRow, hm, Bool.false_eq_true, if_false, lookupCounter, ih,
          if_neg hrow]

theorem UpsertCounters_singleton (table : List CounterRow) (p : ParsedKey) :
    UpsertCounters table [p] = upsertCounterRow table (rowOfParsedKey p) := rfl

/-- C5: for every (interval, date, attributes) tuple the persisted count
is monotonic non-decreasing across successive UpsertCounters calls — the
upsert writes max(existing, incoming) — so upserting count c1 and then
c2 < c1 for the same tuple leaves the persisted count at c1. -/
theorem upsert_count_monotonic (table : List CounterRow) (r1 r2 i : Str) (d : GoTime)
    (a : AttrMap) (c1 c2 : Int) (hlt : c2 < c1) :
    (lookupCounter i d a table = none →
      lookupCounter i d a (UpsertCounters table [⟨r1, i, d, a, c1⟩]) = some c1) ∧
    (∀ c0, lookupCounter i d a table = some c0 →
      lookupCounter i d a (UpsertCounters table [⟨r1, i, d, a, c1⟩]) = some (max c0 c1)) ∧
    lookupCounter i d a
        (UpsertCounters (UpsertCounters table [⟨r1, i, d, a, c1⟩]) [⟨r2, i, d, a, c2⟩]) =
      lookupCounter i d a (UpsertCounters table [⟨r1, i, d, a, c1⟩]) ∧
    (lookupCounter i d a table = none →
      lookupCounter i d a
        (UpsertCounters (UpsertCounters table [⟨r1, i, d, a, c1⟩]) [⟨r2, i, d, a, c2⟩]) =
      some c1) := by
  simp only [UpsertCounters_singleton]
  have hrow1 : rowOfParsedKey ⟨r1, i, d, a, c1⟩ = (⟨i, d, a, c1⟩ : CounterRow) := rfl
  have hrow2 : rowOfParsedKey ⟨r2, i, d, a, c2⟩ = (⟨i, d, a, c2⟩ : CounterRow) := rfl
  rw [hrow1, hrow2]
  have h1 := lookupCounter_upsertCounterRow table ⟨i, d, a, c1⟩ i d a
  simp only [and_self, if_pos] at h1
  have h2 := lookupCounter_upsertCounterRow
    (upsertCounterRow table (⟨i, d, a, c1⟩ : CounterRow)) ⟨i, d, a, c2⟩ i d a
  simp only [and_self, if_pos] at h2
  cases hbase : lookupCounter i d a table with
  | none =>
    rw [hbase] at h1
    have h1c : lookupCounter i d a (upsertCounterRow table ⟨i, d, a, c1⟩) = some c1 := h1
    rw [h1c] at h2
    have h2c : lookupCounter i d a
        (upsertCounterRow (upsertCounterRow table ⟨i, d, a, c1⟩) ⟨i, d, a, c2⟩) =
        some (max c1 c2) := h2
    have hmax : max c1 c2 = c1 := by omega
    exact ⟨fun _ => h1c, fun c0 hc => Option.noConfusion hc,
      by rw [h2c, h1c, hmax], fun _ => by rw [h2c, hmax]⟩
  | some c0 =>
    rw [hbase] at h1
    have h1c : lookupCounter i d a (upsertCounterRow table ⟨i, d, a, c1⟩) =
        some (max c0 c1) := h1
    rw [h1c] at h2
    have h2c : lookupCounter i d a
        (upsertCounterRow (upsertCounterRow table ⟨i, d, a, c1⟩) ⟨i, d, a, c2⟩) =
        some (max (max c0 c1) c2) := h2
    have hmax : max (max c0 c1) c2 = max c0 c1 := by omega
    exact ⟨fun hc => Option.noConfusion hc,
      fun c0x hc => by cases hc; exact h1c,
      by rw [h2c, h1c, hmax], fun hc => Option.noConfusion hc⟩

/-- Witness for C5 at a concrete tuple: upserting 5 then 3 leaves 5. -/
theorem upsert_count_monotonic_witness :
    (3 : Int) < 5 ∧
    lookupCounter dayStr zeroTime []
        (UpsertCounters (UpsertCounters [] [⟨strOf "k", dayStr, zeroTime, [], 5⟩])
          [⟨strOf "k", dayStr, zeroTime, [], 3⟩]) = some 5 :=
  ⟨by decide,
    (upsert_count_monotonic [] (strOf "k") (strOf "k") dayStr zeroTime [] 5 3 (by decide)).2.2.2
      rfl⟩

theorem parseIntervalDate_tag (i s : Str) (d : GoTime) (h : parseIntervalDate i s = .ok d) :
    validIntervalTag i := by
  unfold parseIntervalDate at h
  by_cases h1 : i = dayStr
  · exact Or.inl h1
  · by_cases h2 : i = weekStr
    · exact Or.inr (Or.inl h2)
    · by_cases h3 : i = monthStr
      · exact Or.inr (Or.inr h3)
      · rw [if_neg h1, if_neg h2, if_neg h3] at h
        exact Except.noConfusion h

theorem ParseKey_interval_tag (raw : Str) (p : ParsedKey) (h : ParseKey raw = .ok p) :
    validIntervalTag p.interval := by
  unfold ParseKey at h
  rcases hsplit : goSplit KeySeperator raw with _ | ⟨p0, tl⟩
  · rw [hsplit] at h; exact Except.noConfusion h
  · rcases tl with _ | ⟨p1, rest⟩
    · rw [hsplit] at h; exact Except.noConfusion h
    · rw [hsplit] at h
      by_cases hlen : rest.length < 2
      · simp only [if_pos hlen] at h
        exact Except.noConfusion h
      · simp only [if_neg hlen] at h
        cases hpd : parseIntervalDate p0 p1 with
        | error e =>
          rw [hpd] at h
          exact Except.noConfusion h
        | ok date =>
          rw [hpd] at h
          by_cases hpar : rest.length % 2 ≠ 0
          · simp only [if_pos hpar] at h
            exact Except.noConfusion h
          · simp only [if_neg hpar, Except.ok.injEq] at h
            have hi : p.interval = p0 := by rw [← h]
            rw [hi]
            exact parseIntervalDate_tag p0 p1 date hpd

theorem intervalDelta_of_tag (i : Str) (h : validIntervalTag i) :
    intervalDelta i = some (specDelta i) := by
  rcases h with h | h | h <;> subst h <;> decide

theorem FilterKeys_eq (keys : List ParsedKey) (uT dT : GoTime)
    (h : ∀ k ∈ keys, validIntervalTag k.interval) :
    FilterKeys keys uT dT =
      some (keys.filter (isUpdateKey uT dT), keys.filter (isIgnoreKey uT dT),
        keys.filter (isDeleteKey dT)) := by
  induction keys with
  | nil => rfl
  | cons k rest ih =>
    have hk := h k (List.mem_cons_self k rest)
    have hrest := fun x hx => h x (List.mem_cons_of_mem k hx)
    simp only [FilterKeys, ih hrest]
    cases hb : timeBefore k.date dT with
    | true =>
      simp only [if_pos hb, List.filter]
      simp [isUpdateKey, isIgnoreKey, isDeleteKey, hb]
    | false =>
      simp only [hb, Bool.false_eq_true, if_false, intervalDelta_of_tag k.interval hk]
      cases ha : timeAfter (timeAdd (specDelta k.interval) k.date) uT with
      | true =>
        simp only [if_pos ha, List.filter]
        simp [isUpdateKey, isIgnoreKey, isDeleteKey, hb, ha]
      | false =>
        simp only [ha, Bool.false_eq_true, if_false, List.filter]
        simp [isUpdateKey, isIgnoreKey, isDeleteKey, hb, ha]

theorem ParseKeyList_ok (keys : List Str) :
    ∀ p ∈ (ParseKeyList keys).1, ∃ raw, ParseKey raw = .ok p := by
  induction keys with
  | nil => intro p hp; exact absurd hp (by simp [ParseKeyList])
  | cons k rest ih =>
    intro p hp
    simp only [ParseKeyList] at hp
    cases hk : ParseKey k with
    | ok q =>
      rw [hk] at hp
      simp only [List.mem_cons] at hp
      rcases hp with hp | hp
      · exact ⟨k, hp ▸ hk⟩
      · exact ih p hp
    | error e =>
      rw [hk] at hp
      exact ih p hp

/-- C10: every key `ParseKey` accepts carries one of the three interval
tags `day`, `week`, `month`; consequently `FilterKeys` never reaches its
panic branch (modelled as `none`) on keys produced by `ParseKeyList`. -/
theorem parsed_keys_never_panic :
    (∀ raw p, ParseKey raw = .ok p → validIntervalTag p.interval) ∧
    (∀ keys uT dT, FilterKeys (ParseKeyList keys).1 uT dT ≠ none) := by
  refine ⟨ParseKey_interval_tag, fun keys uT dT => ?_⟩
  have h : ∀ k ∈ (ParseKeyList keys).1, validIntervalTag k.interval := by
    intro k hk
    obtain ⟨raw, hraw⟩ := ParseKeyList_ok keys k hk
    exact ParseKey_interval_tag raw k hraw
  rw [FilterKeys_eq _ uT dT h]
  exact Option.noConfusion

/-- Witness for C10 at a concrete key and key list. -/
theorem parsed_keys_never_panic_witness :
    validIntervalTag (ParsedKey.mk (strOf "day:2017-01-18:foo:bar") dayStr
      ⟨⟨2017, 1, 18⟩, 0⟩ [(strOf "foo", strOf "bar")] 0).interval ∧
    FilterKeys (ParseKeyList [strOf "day:2017-01-18:foo:bar"]).1 zeroTime zeroTime ≠ none :=
  ⟨parsed_keys_never_panic.1 (strOf "day:2017-01-18:foo:bar") _ (by rfl),
    parsed_keys_never_panic.2 [strOf "day:2017-01-18:foo:bar"] zeroTime zeroTime⟩

theorem filter_three_length (keys : List ParsedKey) (uT dT : GoTime) :
    (keys.filter (isUpdateKey uT dT)).length + (keys.filter (isIgnoreKey uT dT)).length +
      (keys.filter (isDeleteKey dT)).length = keys.length := by
  induction keys with
  | nil => rfl
  | cons k rest ih =>
    simp only [List.filter]
    cases hb : timeBefore k.date dT with
    | true =>
      simp only [isUpdateKey, isIgnoreKey, isDeleteKey, hb, Bool.not_true, Bool.false_and,
        List.length_cons]
      omega
    | false =>
      cases ha : timeAfter (timeAdd (specDelta k.interval) k.date) uT with
      | true =>
        simp only [isUpdateKey, isIgnoreKey, isDeleteKey, hb, ha, Bool.not_true, Bool.not_false,
          Bool.true_and, Bool.and_false, Bool.and_true, List.length_cons]
        omega
      | false =>
        simp only [isUpdateKey, isIgnoreKey, isDeleteKey, hb, ha, Bool.not_true, Bool.not_false,
          Bool.true_and, Bool.and_false, Bool.and_true, List.length_cons]
        omega

/-- C4: under valid interval tags, `FilterKeys` totally partitions its
input: a key dated before the delete threshold is deleted; otherwise it
is updated exactly when its date plus its interval's lifetime delta
(24 h for day, 7 d for week, 31 d for month) lies after the update
threshold; every remaining key is ignored. The three sets' sizes sum to
the input size and no key lands in two sets — in particular no key is
both updated and deleted by the same run. -/
theorem filterKeys_partition (keys : List ParsedKey) (uT dT : GoTime)
    (h : ∀ k ∈ keys, validIntervalTag k.interval) :
    ∃ update ignore delete,
      FilterKeys keys uT dT = some (update, ignore, delete) ∧
      delete = keys.filter (fun k => timeBefore k.date dT) ∧
      update = keys.filter (fun k => !timeBefore k.date dT &&
        timeAfter (timeAdd (specDelta k.interval) k.date) uT) ∧
      ignore = keys.filter (fun k => !timeBefore k.date dT &&
        !timeAfter (timeAdd (specDelta k.interval) k.date) uT) ∧
      update.length + ignore.length + delete.length = keys.length ∧
      (∀ k, ¬(k ∈ update ∧ k ∈ delete)) ∧ (∀ k, ¬(k ∈ update ∧ k ∈ ignore)) ∧
      (∀ k, ¬(k ∈ ignore ∧ k ∈ delete)) := by
  refine ⟨keys.filter (isUpdateKey uT dT), keys.filter (isIgnoreKey uT dT),
    keys.filter (isDeleteKey dT), FilterKeys_eq keys uT dT h, rfl, rfl, rfl,
    filter_three_length keys uT dT, ?_, ?_, ?_⟩
  · intro k ⟨hu, hd⟩
    have h1 := (List.mem_filter.1 hu).2
    have h2 := (List.mem_filter.1 hd).2
    simp only [isUpdateKey, isDeleteKey, Bool.and_eq_true, Bool.not_eq_true'] at h1 h2
    rw [h1.1] at h2
    exact Bool.noConfusion h2
  · intro k ⟨hu, hi⟩
    have h1 := (List.mem_filter.1 hu).2
    have h2 := (List.mem_filter.1 hi).2
    simp only [isUpdateKey, isIgnoreKey, Bool.and_eq_true, Bool.not_eq_true'] at h1 h2
    rw [h1.2] at h2
    exact absurd h2.2 (by simp)
  · intro k ⟨hi, hd⟩
    have h1 := (List.mem_filter.1 hi).2
    have h2 := (List.mem_filter.1 hd).2
    simp only [isIgnoreKey, isDeleteKey, Bool.and_eq_true, Bool.not_eq_true'] at h1 h2
    rw [h1.1] at h2
    exact Bool.noConfusion h2

/-- Witness for C4 on the repository's own `TestFilterKeys` scenario:
three day keys, thresholds 2017-01-17 and 2017-01-09. -/
theorem filterKeys_partition_witness :
    ∃ update ignore delete,
      FilterKeys
        [⟨strOf "day:2017-01-18:foo:bar", dayStr, ⟨⟨2017, 1, 18⟩, 0⟩, [(strOf "foo", strOf "bar")], 0⟩,
         ⟨strOf "day:2017-01-10:foo:bar", dayStr, ⟨⟨2017, 1, 10⟩, 0⟩, [(strOf "foo", strOf "bar")], 0⟩,
         ⟨strOf "day:2017-01-01:foo:bar", dayStr, ⟨⟨2017, 1, 1⟩, 0⟩, [(strOf "foo", strOf "bar")], 0⟩]
        ⟨⟨2017, 1, 17⟩, 0⟩ ⟨⟨2017, 1, 9⟩, 0⟩ = some (update, ignore, delete) ∧
      update.length + ignore.length + delete.length = 3 := by
  obtain ⟨u, i, d, h1, _, _, _, hlen, _⟩ :=
    filterKeys_partition
      [⟨strOf "day:2017-01-18:foo:bar", dayStr, ⟨⟨2017, 1, 18⟩, 0⟩, [(strOf "foo", strOf "bar")], 0⟩,
       ⟨strOf "day:2017-01-10:foo:bar", dayStr, ⟨⟨2017, 1, 10⟩, 0⟩, [(strOf "foo", strOf "bar")], 0⟩,
       ⟨strOf "day:2017-01-01:foo:bar", dayStr, ⟨⟨2017, 1, 1⟩, 0⟩, [(strOf "foo", strOf "bar")], 0⟩]
      ⟨⟨2017, 1, 17⟩, 0⟩ ⟨⟨2017, 1, 9⟩, 0⟩ (by intro k hk; fin_cases hk <;> exact Or.inl rfl)
  exact ⟨u, i, d, h1, by simpa using hlen⟩

/-- C8: `Validate` rejects every request with an empty id; for a
non-empty id it errors exactly when some attribute key or value contains
the separator, and otherwise succeeds with a zero date replaced by the
current time and an empty attribute map replaced by exactly the single
sentinel attribute `null=null`. -/
theorem validate_spec (r : IngressRequest) (now : GoTime) :
    (r.id = [] → Validate r now = .error (strOf "missing request ID")) ∧
    (r.id ≠ [] →
      ((∃ kv ∈ r.attributes, KeySeperator ∈ kv.1 ∨ KeySeperator ∈ kv.2) →
        Validate r now = .error (strOf "invalid use of colon in attribute key/value")) ∧
      ((∀ kv ∈ r.attributes, KeySeperator ∉ kv.1 ∧ KeySeperator ∉ kv.2) →
        Validate r now = .ok ⟨r.id,
          if r.date = zeroTime then now else r.date,
          if r.attributes = [] then [(NullAttribute, NullAttribute)] else r.attributes⟩)) := by
  refine ⟨fun hid => by simp [Validate, hid], fun hid => ⟨?_, ?_⟩⟩
  · rintro ⟨kv, hkv, hsep⟩
    have hne : r.attributes ≠ [] := fun h => absurd hkv (by simp [h])
    have hx : ∃ x y, (x, y) ∈ r.attributes ∧ (KeySeperator ∉ x → KeySeperator ∈ y) :=
      ⟨kv.1, kv.2, hkv, fun hn => hsep.resolve_left hn⟩
    by_cases hdate : r.date = zeroTime <;> simp [Validate, hid, hne, hdate] <;> exact hx
  · intro hall
    by_cases hattr : r.attributes = []
    · by_cases hdate : r.date = zeroTime <;> simp [Validate, hid, hattr, hdate]
    · by_cases hdate : r.date = zeroTime <;> simp [Validate, hid, hattr, hdate] <;>
        exact fun x y hxy => hall (x, y) hxy

/-- Witness for C8: a request with an id, a zero date and no attributes
validates to the sentinel attribute map and the supplied clock. -/
theorem validate_spec_witness :
    Validate ⟨strOf "1234", zeroTime, []⟩ ⟨⟨2009, 11, 10⟩, 0⟩ =
      .ok ⟨strOf "1234", ⟨⟨2009, 11, 10⟩, 0⟩, [(NullAttribute, NullAttribute)]⟩ := by
  have h := (validate_spec ⟨strOf "1234", zeroTime, []⟩ ⟨⟨2009, 11, 10⟩, 0⟩).2
    (by decide) |>.2 (by simp)
  simpa using h

theorem serveIngress_auth (auth : Option AuthConfig) (hdr method : Str)
    (decoded : Except Str IngressRequest) (now : GoTime) (redisErr : Option Str) :
    serveIngress auth hdr method decoded now redisErr =
      if authOk auth hdr then Ingress method decoded now redisErr else ⟨403, []⟩ := by
  cases auth with
  | none => simp [serveIngress, authOk]
  | some cfg =>
    cases hreq : cfg.required with
    | false => simp [serveIngress, authOk, hreq]
    | true =>
      simp only [serveIngress, authOk, hreq, Bool.not_true, Bool.false_or, if_true]
      by_cases hhdr : hdr = []
      · subst hhdr
        have hp : (strOf "Bearer ").isPrefixOf ([] : Str) = false := by decide
        simp [hp]
      · rw [if_neg hhdr]
        by_cases hpre : (strOf "Bearer ").isPrefixOf hdr <;> simp [hpre]

/-- C9: the response of `PUT /v1/ingress` dispatch: 403 before routing
whenever required auth fails; 405 for a method other than PUT; 400 with
body `Invalid Request: <detail>` when decoding or validation fails; and
200 with no body otherwise — even when the approximate-store update
fails. -/
theorem ingress_dispatch (auth : Option AuthConfig) (hdr method : Str)
    (decoded : Except Str IngressRequest) (now : GoTime) (redisErr : Option Str) :
    (authOk auth hdr = false →
      serveIngress auth hdr method decoded now redisErr = ⟨403, []⟩) ∧
    (authOk auth hdr = true → method ≠ strOf "PUT" →
      serveIngress auth hdr method decoded now redisErr = ⟨405, []⟩) ∧
    (authOk auth hdr = true → method = strOf "PUT" →
      ∀ e, ParseIngressRequest decoded now = .error e →
        serveIngress auth hdr method decoded now redisErr =
          ⟨400, strOf "Invalid Request: " ++ e⟩) ∧
    (authOk auth hdr = true → method = strOf "PUT" →
      ∀ req, ParseIngressRequest decoded now = .ok req →
        serveIngress auth hdr method decoded now redisErr = ⟨200, []⟩) := by
  have hs := serveIngress_auth auth hdr method decoded now redisErr
  refine ⟨fun hf => by rw [hs, hf]; rfl, fun ht hm => ?_, fun ht hm e he => ?_, fun ht hm req hr => ?_⟩
  · rw [hs, ht]
    simp [Ingress, hm]
  · rw [hs, ht]
    simp [Ingress, hm, he]
  · rw [hs, ht]
    simp [Ingress, hm, hr]

/-- Witness for C9: with auth required, a missing header gives 403, and
a valid bearer token with a valid event gives 200 even though the store
update fails. -/
theorem ingress_dispatch_witness :
    serveIngress (some ⟨true, [strOf "1234", strOf "2345"]⟩) [] (strOf "PUT")
        (.ok ⟨strOf "1234", zeroTime, []⟩) ⟨⟨2009, 11, 10⟩, 0⟩ none = ⟨403, []⟩ ∧
    serveIngress (some ⟨true, [strOf "1234", strOf "2345"]⟩) (strOf "Bearer 2345") (strOf "PUT")
        (.ok ⟨strOf "1234", zeroTime, []⟩) ⟨⟨2009, 11, 10⟩, 0⟩ (some (strOf "boom")) =
      ⟨200, []⟩ :=
  ⟨(ingress_dispatch (some ⟨true, [strOf "1234", strOf "2345"]⟩) [] (strOf "PUT")
      (.ok ⟨strOf "1234", zeroTime, []⟩) ⟨⟨2009, 11, 10⟩, 0⟩ none).1 (by decide),
   (ingress_dispatch (some ⟨true, [strOf "1234", strOf "2345"]⟩) (strOf "Bearer 2345")
      (strOf "PUT") (.ok ⟨strOf "1234", zeroTime, []⟩) ⟨⟨2009, 11, 10⟩, 0⟩
      (some (strOf "boom"))).2.2.2 (by decide) rfl
      ⟨strOf "1234", ⟨⟨2009, 11, 10⟩, 0⟩, [(NullAttribute, NullAttribute)]⟩ (by rfl)⟩

/-- C1 (divergence): `PooledClient.ListKeys` deduplicates across scan
pages and sorts, but never strips the `counterd:` namespace: on a store
holding the key `counterd:day:2017-01-18:foo:bar` it returns the
prefixed string, which the key codec then rejects (`invalid interval
"counterd"`), while the bare counter key parses fine. The last conjunct
shows the deduplication and sorting across pages that the code does
perform. -/
theorem listKeys_keeps_namespace :
    scanListKeys [[redisNS ++ strOf "day:2017-01-18:foo:bar"]] =
      [redisNS ++ strOf "day:2017-01-18:foo:bar"] ∧
    ParseKey (redisNS ++ strOf "day:2017-01-18:foo:bar") =
      .error (.invalidInterval (strOf "counterd")) ∧
    ParseKey (strOf "day:2017-01-18:foo:bar") =
      .ok ⟨strOf "day:2017-01-18:foo:bar", dayStr, ⟨⟨2017, 1, 18⟩, 0⟩,
        [(strOf "foo", strOf "bar")], 0⟩ ∧
    scanListKeys [[redisNS ++ strOf "b"], [redisNS ++ strOf "a", redisNS ++ strOf "b"]] =
      [redisNS ++ strOf "a", redisNS ++ strOf "b"] :=
  ⟨rfl, rfl, rfl, rfl⟩

set_option maxRecDepth 8000 in
/-- C2 (divergence): on a run where the store lists one fresh counter
key but `GetCounts` returns a list of the wrong length, `Run` stops
before assigning counts and performs neither `UpsertCounters` nor
`UpsertDomain` — but the error it returns is the nil error of the
successful `GetCounts` call, so the run reports success. -/
theorem snapshot_mismatch_nil_error :
    snapRun
      { listKeysRes := .ok [strOf "day:2017-01-18:foo:bar"], deleteRes := none,
        getCountsRes := .ok [], upsertCountersRes := none, upsertDomainRes := none }
      ⟨⟨2017, 1, 18⟩, 12 * 3600⟩ (3 * 3600) (3 * 31 * 24 * 3600) =
      some (none, [SnapAction.deleteKeys []]) := rfl

theorem isLeapYear_iff (y : Int) :
    isLeapYear y = true ↔ (y % 4 = 0 ∧ (y % 100 ≠ 0 ∨ y % 400 = 0)) := by
  simp [isLeapYear, Bool.and_eq_true, Bool.or_eq_true, decide_eq_true_eq, bne_iff_ne, ne_eq]

theorem daysInMonth_bounds (y m : Int) : 28 ≤ daysInMonth y m ∧ daysInMonth y m ≤ 31 := by
  unfold daysInMonth
  split_ifs <;> omega

theorem dayNumber_day_step (y m d : Int) :
    dayNumber ⟨y, m, d - 1⟩ = dayNumber ⟨y, m, d⟩ - 1 := by
  simp only [dayNumber]
  omega

theorem dayNumber_month_borrow (y m : Int) (h2 : 2 ≤ m) (h12 : m ≤ 12) :
    dayNumber ⟨y, m - 1, daysInMonth y (m - 1)⟩ = dayNumber ⟨y, m, 1⟩ - 1 := by
  interval_cases m <;> simp only [dayNumber, daysInMonth] <;> norm_num
  all_goals
    first
    | omega
    | (cases hleap : isLeapYear y with
       | true =>
         simp only [hleap, if_true]
         rw [isLeapYear_iff] at hleap
         omega
       | false =>
         simp only [hleap, Bool.false_eq_true, if_false]
         rw [← Bool.not_eq_true, isLeapYear_iff] at hleap
         omega)

theorem dayNumber_year_borrow (y : Int) :
    dayNumber ⟨y - 1, 12, 31⟩ = dayNumber ⟨y, 1, 1⟩ - 1 := by
  simp only [dayNumber]
  norm_num
  omega

theorem validCivil_iff (c : CivilDate) :
    validCivil c = true ↔
      1 ≤ c.month ∧ c.month ≤ 12 ∧ 1 ≤ c.day ∧ c.day ≤ daysInMonth c.year c.month := by
  simp [validCivil, decide_eq_true_eq]

theorem dayNumber_predDay (c : CivilDate) (h : validCivil c = true) :
    dayNumber (predDay c) = dayNumber c - 1 := by
  obtain ⟨y, m, d⟩ := c
  rw [validCivil_iff] at h
  simp only at h
  unfold predDay
  simp only
  by_cases hd : 1 < d
  · rw [if_pos hd]
    exact dayNumber_day_step y m d
  · have hd1 : d = 1 := by omega
    subst hd1
    rw [if_neg hd]
    by_cases hm : 1 < m
    · rw [if_pos hm]
      exact dayNumber_month_borrow y m (by omega) h.2.1
    · have hm1 : m = 1 := by omega
      subst hm1
      rw [if_neg hm]
      exact dayNumber_year_borrow y

theorem validCivil_predDay (c : CivilDate) (h : validCivil c = true) :
    validCivil (predDay c) = true := by
  obtain ⟨y, m, d⟩ := c
  rw [validCivil_iff] at h
  simp only at h
  unfold predDay
  simp only
  by_cases hd : 1 < d
  · rw [if_pos hd, validCivil_iff]
    dsimp only
    exact ⟨h.1, h.2.1, by omega, by omega⟩
  · have hd1 : d = 1 := by omega
    subst hd1
    rw [if_neg hd]
    by_cases hm : 1 < m
    · rw [if_pos hm, validCivil_iff]
      dsimp only
      have hb := daysInMonth_bounds y (m - 1)
      exact ⟨by omega, by omega, by omega, by omega⟩
    · have hm1 : m = 1 := by omega
      subst hm1
      rw [if_neg hm, validCivil_iff]
      dsimp only
      refine ⟨by norm_num, by norm_num, by norm_num, ?_⟩
      rw [daysInMonth]
      norm_num

theorem iterDays_predDay_spec (n : Nat) (c : CivilDate) (h : validCivil c = true) :
    validCivil (iterDays predDay n c) = true ∧
      dayNumber (iterDays predDay n c) = dayNumber c - n := by
  induction n generalizing c with
  | zero => exact ⟨h, by norm_num [iterDays]⟩
  | succ k ih =>
    have hstep := ih (predDay c) (validCivil_predDay c h)
    refine ⟨hstep.1, ?_⟩
    rw [show iterDays predDay (k + 1) c = iterDays predDay k (predDay c) from rfl, hstep.2,
      dayNumber_predDay c h]
    push_cast
    ring

theorem addDays_neg_eq_iter (w : Int) (hw : 0 ≤ w) (c : CivilDate) :
    addDays (-w) c = iterDays predDay w.toNat c := by
  unfold addDays
  by_cases h : 0 ≤ -w
  · have hw0 : w = 0 := by omega
    subst hw0
    rfl
  · rw [if_neg h]
    congr 1
    omega

theorem timeAdd_day_mult (k : Int) (t : GoTime) (h0 : 0 ≤ t.sec) (h1 : t.sec < 86400) :
    timeAdd (86400 * k) t = ⟨addDays k t.date, t.sec⟩ := by
  simp only [timeAdd]
  have hq : (t.sec + 86400 * k) / 86400 = k := by omega
  have hr : (t.sec + 86400 * k) % 86400 = t.sec := by omega
  rw [hq, hr]

theorem weekdayOfDate_bounds (c : CivilDate) :
    0 ≤ weekdayOfDate c ∧ weekdayOfDate c < 7 := by
  unfold weekdayOfDate
  omega

theorem digitVal_digitChar (k : Nat) (h : k < 10) : digitVal (digitChar k) = k := by
  interval_cases k <;> rfl

theorem isDigit_digitChar (k : Nat) (h : k < 10) : (digitChar k).isDigit = true := by
  interval_cases k <;> decide

theorem digitsToInt_four (a b c d : Nat) (ha : a < 10) (hb : b < 10) (hc : c < 10)
    (hd : d < 10) :
    digitsToInt [digitChar a, digitChar b, digitChar c, digitChar d] =
      some ((1000 * a + 100 * b + 10 * c + d : Nat) : Int) := by
  unfold digitsToInt
  rw [if_pos ⟨by simp, by
    simp only [List.all_cons, List.all_nil, Bool.and_true, Bool.and_eq_true]
    exact ⟨isDigit_digitChar a ha, isDigit_digitChar b hb, isDigit_digitChar c hc,
      isDigit_digitChar d hd⟩⟩]
  simp only [List.foldl, digitVal_digitChar a ha, digitVal_digitChar b hb,
    digitVal_digitChar c hc, digitVal_digitChar d hd]
  push_cast
  ring_nf

theorem digitsToInt_two (a b : Nat) (ha : a < 10) (hb : b < 10) :
    digitsToInt [digitChar a, digitChar b] = some ((10 * a + b : Nat) : Int) := by
  unfold digitsToInt
  rw [if_pos ⟨by simp, by
    simp only [List.all_cons, List.all_nil, Bool.and_true, Bool.and_eq_true]
    exact ⟨isDigit_digitChar a ha, isDigit_digitChar b hb⟩⟩]
  simp only [List.foldl, digitVal_digitChar a ha, digitVal_digitChar b hb]
  push_cast
  ring_nf

theorem pad4_digits (y : Int) (h0 : 0 ≤ y) (h1 : y ≤ 9999) :
    pad4 y = [digitChar ((y / 1000) % 10).toNat, digitChar ((y / 100) % 10).toNat,
      digitChar ((y / 10) % 10).toNat, digitChar (y % 10).toNat] := by
  rw [pad4, if_pos ⟨h0, h1⟩]

theorem pad2_digits (v : Int) (h0 : 0 ≤ v) (h1 : v ≤ 99) :
    pad2 v = [digitChar ((v / 10) % 10).toNat, digitChar (v % 10).toNat] := by
  rw [pad2, if_pos ⟨h0, h1⟩]

theorem digitsToInt_pad4 (y : Int) (h0 : 0 ≤ y) (h1 : y ≤ 9999) :
    digitsToInt (pad4 y) = some y := by
  rw [pad4_digits y h0 h1, digitsToInt_four _ _ _ _ (by omega) (by omega) (by omega) (by omega)]
  congr 1
  push_cast [Int.toNat_of_nonneg (show (0 : Int) ≤ (y / 1000) % 10 by omega),
    Int.toNat_of_nonneg (show (0 : Int) ≤ (y / 100) % 10 by omega),
    Int.toNat_of_nonneg (show (0 : Int) ≤ (y / 10) % 10 by omega),
    Int.toNat_of_nonneg (show (0 : Int) ≤ y % 10 by omega)]
  omega

theorem digitsToInt_pad2 (v : Int) (h0 : 0 ≤ v) (h1 : v ≤ 99) :
    digitsToInt (pad2 v) = some v := by
  rw [pad2_digits v h0 h1, digitsToInt_two _ _ (by omega) (by omega)]
  congr 1
  push_cast [Int.toNat_of_nonneg (show (0 : Int) ≤ (v / 10) % 10 by omega),
    Int.toNat_of_nonneg (show (0 : Int) ≤ v % 10 by omega)]
  omega

theorem parseYMD_formatYMD (c : CivilDate) (h : validCivil c = true)
    (hy0 : 0 ≤ c.year) (hy1 : c.year ≤ 9999) :
    parseYMD (formatYMD c) = some c := by
  obtain ⟨y, m, d⟩ := c
  rw [validCivil_iff] at h
  dsimp only at h hy0 hy1 ⊢
  have hd31 : d ≤ 31 := le_trans h.2.2.2 (daysInMonth_bounds y m).2
  have h4 : digitsToInt [digitChar ((y / 1000) % 10).toNat, digitChar ((y / 100) % 10).toNat,
      digitChar ((y / 10) % 10).toNat, digitChar (y % 10).toNat] = some y := by
    rw [← pad4_digits y hy0 hy1]
    exact digitsToInt_pad4 y hy0 hy1
  have h2m : digitsToInt [digitChar ((m / 10) % 10).toNat, digitChar (m % 10).toNat] =
      some m := by
    rw [← pad2_digits m (by omega) (by omega)]
    exact digitsToInt_pad2 m (by omega) (by omega)
  have h2d : digitsToInt [digitChar ((d / 10) % 10).toNat, digitChar (d % 10).toNat] =
      some d := by
    rw [← pad2_digits d (by omega) (by omega)]
    exact digitsToInt_pad2 d (by omega) (by omega)
  rw [formatYMD]
  dsimp only
  rw [pad4_digits y hy0 hy1, pad2_digits m (by omega) (by omega),
    pad2_digits d (by omega) (by omega)]
  simp only [List.cons_append, List.nil_append, parseYMD]
  rw [if_pos ⟨trivial, trivial⟩, h4, h2m, h2d]
  simp only
  rw [if_pos ⟨h.1, h.2.1, h.2.2.1, h.2.2.2⟩]

theorem parseYM_formatYM (c : CivilDate) (h : validCivil c = true)
    (hy0 : 0 ≤ c.year) (hy1 : c.year ≤ 9999) (hd1 : c.day = 1) :
    parseYM (formatYM c) = some c := by
  obtain ⟨y, m, d⟩ := c
  rw [validCivil_iff] at h
  dsimp only at h hy0 hy1 hd1 ⊢
  subst hd1
  have h4 : digitsToInt [digitChar ((y / 1000) % 10).toNat, digitChar ((y / 100) % 10).toNat,
      digitChar ((y / 10) % 10).toNat, digitChar (y % 10).toNat] = some y := by
    rw [← pad4_digits y hy0 hy1]
    exact digitsToInt_pad4 y hy0 hy1
  have h2m : digitsToInt [digitChar ((m / 10) % 10).toNat, digitChar (m % 10).toNat] =
      some m := by
    rw [← pad2_digits m (by omega) (by omega)]
    exact digitsToInt_pad2 m (by omega) (by omega)
  rw [formatYM]
  dsimp only
  rw [pad4_digits y hy0 hy1, pad2_digits m (by omega) (by omega)]
  simp only [List.cons_append, List.nil_append, parseYM]
  rw [if_pos trivial, h4, h2m]
  simp only
  rw [if_pos ⟨h.1, h.2.1⟩]

theorem validTime_iff (t : GoTime) :
    validTime t = true ↔ validCivil t.date = true ∧ 0 ≤ t.sec ∧ t.sec < 86400 := by
  simp [validTime, decide_eq_true_eq]

/-- C3: for every event time, when the week interval is enabled,
`DateIntervals` derives the `week` label by moving the event back by its
weekday number of days and formatting `YYYY-MM-DD`: the labelled date is
the Sunday of the week containing the event (weekday 0, exactly
`weekday` days before the event's date), and the label is accepted by
the key codec's week-date parser. -/
theorem week_interval_sunday_anchor (mask : Nat) (t : GoTime)
    (hmask : mask &&& WeekInterval ≠ 0) (hv : validTime t = true)
    (hy0 : 0 ≤ (timeAdd (-1 * 24 * 3600 * weekdayOfDate t.date) t).date.year)
    (hy1 : (timeAdd (-1 * 24 * 3600 * weekdayOfDate t.date) t).date.year ≤ 9999) :
    lookupAttr weekStr (DateIntervals mask t) =
      some (formatYMD (timeAdd (-1 * 24 * 3600 * weekdayOfDate t.date) t).date) ∧
    weekdayOfDate (timeAdd (-1 * 24 * 3600 * weekdayOfDate t.date) t).date = 0 ∧
    dayNumber (timeAdd (-1 * 24 * 3600 * weekdayOfDate t.date) t).date =
      dayNumber t.date - weekdayOfDate t.date ∧
    0 ≤ weekdayOfDate t.date ∧ weekdayOfDate t.date < 7 ∧
    parseYMD (formatYMD (timeAdd (-1 * 24 * 3600 * weekdayOfDate t.date) t).date) =
      some (timeAdd (-1 * 24 * 3600 * weekdayOfDate t.date) t).date := by
  obtain ⟨hvc, hs0, hs1⟩ := (validTime_iff t).1 hv
  have hwb := weekdayOfDate_bounds t.date
  have heq : -1 * 24 * 3600 * weekdayOfDate t.date = 86400 * (-(weekdayOfDate t.date)) := by
    ring
  have hdate : (timeAdd (-1 * 24 * 3600 * weekdayOfDate t.date) t).date =
      iterDays predDay (weekdayOfDate t.date).toNat t.date := by
    rw [heq, timeAdd_day_mult (-(weekdayOfDate t.date)) t hs0 hs1]
    exact addDays_neg_eq_iter (weekdayOfDate t.date) hwb.1 t.date
  have hit := iterDays_predDay_spec (weekdayOfDate t.date).toNat t.date hvc
  have hcast : ((weekdayOfDate t.date).toNat : Int) = weekdayOfDate t.date :=
    Int.toNat_of_nonneg hwb.1
  have hdn : dayNumber (timeAdd (-1 * 24 * 3600 * weekdayOfDate t.date) t).date =
      dayNumber t.date - weekdayOfDate t.date := by
    rw [hdate, hit.2, hcast]
  refine ⟨?_, ?_, hdn, hwb.1, hwb.2, ?_⟩
  · have hk1 : ¬ weekStr < dayStr := by decide
    have hk2 : ¬ weekStr = dayStr := by decide
    have hk3 : monthStr < weekStr := by decide
    have hk4 : ¬ monthStr < dayStr := by decide
    have hk5 : ¬ monthStr = dayStr := by decide
    have hk6 : ¬ weekStr = monthStr := by decide
    have hk7 : dayStr < weekStr := by decide
    by_cases hd : mask &&& DayInterval ≠ 0 <;> by_cases hm : mask &&& MonthInterval ≠ 0 <;>
      simp [DateIntervals, hd, hm, hmask, insertAttr, lookupAttr, hk1, hk2, hk3, hk4, hk5,
        hk6, hk7]
  · unfold weekdayOfDate at hdn ⊢
    omega
  · rw [hdate]
    exact parseYMD_formatYMD _ hit.1 (hdate ▸ hy0) (hdate ▸ hy1)

/-- Witness for C3 on the repository's own `TestDateIntervals` vector:
the event 2006-01-09T15:04:05Z (a Monday) labels the week 2006-01-08. -/
theorem week_interval_sunday_anchor_witness :
    lookupAttr weekStr (DateIntervals 7 ⟨⟨2006, 1, 9⟩, 54245⟩) = some (strOf "2006-01-08") := by
  have h := (week_interval_sunday_anchor 7 ⟨⟨2006, 1, 9⟩, 54245⟩ (by decide) (by decide)
    (by decide) (by decide)).1
  rw [h]
  rfl

theorem insertAttr_comm (k1 k2 v1 v2 : Str) (h : k1 ≠ k2) (m : AttrMap) :
    insertAttr k1 v1 (insertAttr k2 v2 m) = insertAttr k2 v2 (insertAttr k1 v1 m) := by
  induction m with
  | nil =>
    rcases lt_trichotomy k1 k2 with h12 | h12 | h12
    · simp [insertAttr, h12, lt_asymm h12, h, Ne.symm h]
    · exact absurd h12 h
    · simp [insertAttr, h12, lt_asymm h12, h, Ne.symm h]
  | cons kv rest ih =>
    obtain ⟨k, v⟩ := kv
    by_cases h1 : k1 < k <;> by_cases h2 : k2 < k
    · rcases lt_trichotomy k1 k2 with h12 | h12 | h12
      · simp [insertAttr, h1, h2, h12, lt_asymm h12, h, Ne.symm h]
      · exact absurd h12 h
      · simp [insertAttr, h1, h2, h12, lt_asymm h12, h, Ne.symm h]
    · by_cases he2 : k2 = k
      · have h12 : k1 < k2 := he2 ▸ h1
        have ha : ¬ k < k1 := he2 ▸ lt_asymm h12
        have hb : ¬ k = k1 := he2 ▸ Ne.symm h
        simp [insertAttr, h1, h2, he2, h12, lt_asymm h12, h, Ne.symm h, ha, hb]
      · have hk2 : k < k2 := by
          rcases lt_trichotomy k2 k with hx | hx | hx
          · exact absurd hx h2
          · exact absurd hx he2
          · exact hx
        have h12 : k1 < k2 := lt_trans h1 hk2
        simp [insertAttr, h1, h2, he2, h12, lt_asymm h12, h, Ne.symm h]
    · by_cases he1 : k1 = k
      · have h21 : k2 < k1 := he1 ▸ h2
        have ha : ¬ k < k2 := he1 ▸ lt_asymm h21
        have hb : ¬ k = k2 := he1 ▸ h
        simp [insertAttr, h1, h2, he1, h21, lt_asymm h21, h, Ne.symm h, ha, hb]
      · have hk1 : k < k1 := by
          rcases lt_trichotomy k1 k with hx | hx | hx
          · exact absurd hx h1
          · exact absurd hx he1
          · exact hx
        have h21 : k2 < k1 := lt_trans h2 hk1
        simp [insertAttr, h1, h2, he1, h21, lt_asymm h21, h, Ne.symm h]
    · by_cases he1 : k1 = k
      · have he2 : ¬ k2 = k := fun hx => h (he1.trans hx.symm)
        simp [insertAttr, h1, h2, he1, he2, h, Ne.symm h]
      · by_cases he2 : k2 = k
        · simp [insertAttr, h1, h2, he1, he2, h, Ne.symm h]
        · simp only [insertAttr, if_neg h1, if_neg h2, if_neg he1, if_neg he2]
          rw [ih]

theorem foldl_insertAttr_perm {l1 l2 : List (Str × Str)} (h : l1.Perm l2) :
    (l1.map Prod.fst).Nodup →
    ∀ init : AttrMap,
      l1.foldl (fun m kv => insertAttr kv.1 kv.2 m) init =
        l2.foldl (fun m kv => insertAttr kv.1 kv.2 m) init := by
  induction h with
  | nil => exact fun _ _ => rfl
  | cons x h ih =>
    intro hnd init
    simp only [List.foldl_cons]
    refine ih ?_ (insertAttr x.1 x.2 init)
    simp only [List.map_cons, List.nodup_cons] at hnd
    exact hnd.2
  | swap x y l =>
    intro hnd init
    simp only [List.foldl_cons]
    have hxy : y.1 ≠ x.1 := by
      simp only [List.map_cons, List.nodup_cons, List.mem_cons] at hnd
      exact fun he => hnd.1 (Or.inl he)
    rw [insertAttr_comm x.1 y.1 x.2 y.2 (Ne.symm hxy) init]
  | trans h1 h2 ih1 ih2 =>
    intro hnd init
    rw [ih1 hnd init, ih2 (((h1.map Prod.fst).nodup_iff).1 hnd) init]

/-- C6: two validated events with the same id, the same date labels,
and the same attribute mapping built in any insertion order produce the
identical list of counter keys, element-wise equal as strings — the
serialization sorts attribute keys ascending, so the canonical map
determines the keys. -/
theorem request_keys_canonical (intervals : AttrMap) (id : Str) (date : GoTime)
    (l1 l2 : List (Str × Str)) (hperm : l1.Perm l2) (hnd : (l1.map Prod.fst).Nodup) :
    buildAttrMap l1 = buildAttrMap l2 ∧
    RequestCounterKeys intervals ⟨id, date, buildAttrMap l1⟩ =
      RequestCounterKeys intervals ⟨id, date, buildAttrMap l2⟩ := by
  have hb : buildAttrMap l1 = buildAttrMap l2 := foldl_insertAttr_perm hperm hnd []
  exact ⟨hb, by rw [hb]⟩

/-- Witness for C6 on the `TestRequestCounterKeys` attributes inserted
in the two possible orders. -/
theorem request_keys_canonical_witness :
    buildAttrMap [(strOf "foo", strOf "bar"), (strOf "baz", strOf "zip")] =
      buildAttrMap [(strOf "baz", strOf "zip"), (strOf "foo", strOf "bar")] ∧
    RequestCounterKeys [(dayStr, strOf "2018-01-27")] ⟨strOf "1234", zeroTime,
        buildAttrMap [(strOf "foo", strOf "bar"), (strOf "baz", strOf "zip")]⟩ =
      RequestCounterKeys [(dayStr, strOf "2018-01-27")] ⟨strOf "1234", zeroTime,
        buildAttrMap [(strOf "baz", strOf "zip"), (strOf "foo", strOf "bar")]⟩ :=
  request_keys_canonical [(dayStr, strOf "2018-01-27")] (strOf "1234") zeroTime
    [(strOf "foo", strOf "bar"), (strOf "baz", strOf "zip")]
    [(strOf "baz", strOf "zip"), (strOf "foo", strOf "bar")]
    (by decide) (by decide)

theorem goSplit_ne_nil (sep : Char) (s : Str) : goSplit sep s ≠ [] := by
  cases s with
  | nil => simp [goSplit]
  | cons c rest =>
    simp only [goSplit]
    cases goSplit sep rest with
    | nil => by_cases h : c = sep <;> simp [h]
    | cons h t => by_cases hc : c = sep <;> simp [hc]

theorem goSplit_no_sep (sep : Char) (s : Str) (h : sep ∉ s) : goSplit sep s = [s] := by
  induction s with
  | nil => rfl
  | cons c rest ih =>
    have hc : ¬ c = sep := fun he => h (he ▸ List.mem_cons_self c rest)
    have hr : sep ∉ rest := fun hm => h (List.mem_cons_of_mem c hm)
    simp only [goSplit, ih hr, if_neg hc]

theorem goSplit_append_sep (sep : Char) (s l : Str) (h : sep ∉ s) :
    goSplit sep (s ++ sep :: l) = s :: goSplit sep l := by
  induction s with
  | nil =>
    simp only [List.nil_append, goSplit]
    cases hg : goSplit sep l with
    | nil => exact absurd hg (goSplit_ne_nil sep l)
    | cons h t => simp
  | cons c rest ih =>
    have hc : ¬ c = sep := fun he => h (he ▸ List.mem_cons_self c rest)
    have hr : sep ∉ rest := fun hm => h (List.mem_cons_of_mem c hm)
    simp only [List.cons_append, goSplit, List.append_eq, ih hr, if_neg hc]

theorem goSplit_sepJoin (sep : Char) (parts : List Str) (hne : parts ≠ [])
    (h : ∀ p ∈ parts, sep ∉ p) : goSplit sep (sepJoin sep parts) = parts := by
  induction parts with
  | nil => exact absurd rfl hne
  | cons p rest ih =>
    cases rest with
    | nil =>
      simp only [sepJoin]
      exact goSplit_no_sep sep p (h p (List.mem_cons_self p []))
    | cons p2 rest2 =>
      simp only [sepJoin]
      rw [goSplit_append_sep sep p _ (h p (List.mem_cons_self p _)),
        ih (by simp) (fun q hq => h q (List.mem_cons_of_mem p hq))]

theorem pairUp_flattenPairs (l : List (Str × Str)) (m : AttrMap) :
    pairUp (flattenPairs l) m = l.foldl (fun acc kv => insertAttr kv.1 kv.2 acc) m := by
  induction l generalizing m with
  | nil => rfl
  | cons kv rest ih =>
    obtain ⟨k, v⟩ := kv
    simp only [flattenPairs, pairUp, List.foldl_cons, ih]

theorem length_flattenPairs (l : List (Str × Str)) :
    (flattenPairs l).length = 2 * l.length := by
  induction l with
  | nil => rfl
  | cons kv rest ih => simp [flattenPairs, ih]; omega

theorem mem_flattenPairs (l : List (Str × Str)) (x : Str) :
    x ∈ flattenPairs l ↔ ∃ kv ∈ l, x = kv.1 ∨ x = kv.2 := by
  induction l with
  | nil => simp [flattenPairs]
  | cons kv rest ih =>
    obtain ⟨k, v⟩ := kv
    simp only [flattenPairs, List.mem_cons, ih]
    constructor
    · rintro (h | h | ⟨kv2, hm, hx⟩)
      · exact ⟨(k, v), Or.inl rfl, Or.inl h⟩
      · exact ⟨(k, v), Or.inl rfl, Or.inr h⟩
      · exact ⟨kv2, Or.inr hm, hx⟩
    · rintro ⟨kv2, hm | hm, hx⟩
      · subst hm
        rcases hx with hx | hx
        · exact Or.inl hx
        · exact Or.inr (Or.inl hx)
      · exact Or.inr (Or.inr ⟨kv2, hm, hx⟩)

theorem insertAttr_append_of_lt (m : AttrMap) (k : Str) (v : Str)
    (h : ∀ kv ∈ m, kv.1 < k) : insertAttr k v m = m ++ [(k, v)] := by
  induction m with
  | nil => rfl
  | cons kv rest ih =>
    obtain ⟨k2, v2⟩ := kv
    have hk2 : k2 < k := h (k2, v2) (List.mem_cons_self _ _)
    simp only [insertAttr, if_neg (lt_asymm hk2), if_neg (Ne.symm (ne_of_lt hk2)),
      List.cons_append, List.cons.injEq, true_and]
    exact ih (fun kv2 hm => h kv2 (List.mem_cons_of_mem _ hm))

theorem foldl_insertAttr_of_sorted (l : AttrMap) (acc : AttrMap)
    (hl : List.Pairwise (fun a b : Str × Str => a.1 < b.1) l)
    (hacc : ∀ a ∈ acc, ∀ b ∈ l, a.1 < b.1) :
    l.foldl (fun m kv => insertAttr kv.1 kv.2 m) acc = acc ++ l := by
  induction l generalizing acc with
  | nil => simp
  | cons b rest ih =>
    simp only [List.foldl_cons]
    rw [insertAttr_append_of_lt acc b.1 b.2
      (fun kv hm => hacc kv hm b (List.mem_cons_self b rest))]
    rw [ih (acc ++ [(b.1, b.2)]) (List.Pairwise.sublist (List.sublist_cons_self b rest) hl) ?_]
    · simp
    · intro a ha c hc
      rcases List.mem_append.1 ha with ha | ha
      · exact hacc a ha c (List.mem_cons_of_mem b hc)
      · have : a = (b.1, b.2) := by simpa using ha
        subst this
        exact (List.pairwise_cons.1 hl).1 c hc

theorem digitChar_ne_sep (k : Nat) (h : k < 10) : digitChar k ≠ KeySeperator := by
  interval_cases k <;> decide

theorem sep_not_mem_pad4 (y : Int) (h0 : 0 ≤ y) (h1 : y ≤ 9999) : KeySeperator ∉ pad4 y := by
  rw [pad4_digits y h0 h1]
  intro hm
  simp only [List.mem_cons, List.not_mem_nil, or_false] at hm
  rcases hm with h | h | h | h <;> exact digitChar_ne_sep _ (by omega) h.symm

theorem sep_not_mem_pad2 (v : Int) (h0 : 0 ≤ v) (h1 : v ≤ 99) : KeySeperator ∉ pad2 v := by
  rw [pad2_digits v h0 h1]
  intro hm
  simp only [List.mem_cons, List.not_mem_nil, or_false] at hm
  rcases hm with h | h <;> exact digitChar_ne_sep _ (by omega) h.symm

theorem sep_not_mem_formatYMD (c : CivilDate) (h : validCivil c = true)
    (hy0 : 0 ≤ c.year) (hy1 : c.year ≤ 9999) : KeySeperator ∉ formatYMD c := by
  rw [validCivil_iff] at h
  have hd31 : c.day ≤ 31 := le_trans h.2.2.2 (daysInMonth_bounds c.year c.month).2
  intro hm
  rw [formatYMD] at hm
  rcases List.mem_append.1 hm with hm | hm
  · exact sep_not_mem_pad4 c.year hy0 hy1 hm
  · rcases List.mem_cons.1 hm with hm | hm
    · exact absurd hm.symm (by decide)
    · rcases List.mem_append.1 hm with hm | hm
      · exact sep_not_mem_pad2 c.month (by omega) (by omega) hm
      · rcases List.mem_cons.1 hm with hm | hm
        · exact absurd hm.symm (by decide)
        · exact sep_not_mem_pad2 c.day (by omega) (by omega) hm

theorem sep_not_mem_formatYM (c : CivilDate) (h : validCivil c = true)
    (hy0 : 0 ≤ c.year) (hy1 : c.year ≤ 9999) : KeySeperator ∉ formatYM c := by
  rw [validCivil_iff] at h
  intro hm
  rw [formatYM] at hm
  rcases List.mem_append.1 hm with hm | hm
  · exact sep_not_mem_pad4 c.year hy0 hy1 hm
  · rcases List.mem_cons.1 hm with hm | hm
    · exact absurd hm.symm (by decide)
    · exact sep_not_mem_pad2 c.month (by omega) (by omega) hm

theorem lookupAttr_of_mem (m : AttrMap)
    (hnd : List.Pairwise (fun a b : Str × Str => a.1 < b.1) m) :
    ∀ kv ∈ m, lookupAttr kv.1 m = some kv.2 := by
  induction m with
  | nil => intro kv hm; exact absurd hm (List.not_mem_nil kv)
  | cons e rest ih =>
    intro kv hm
    rcases List.mem_cons.1 hm with hm | hm
    · subst hm
      simp [lookupAttr]
    · have hlt : e.1 < kv.1 := (List.pairwise_cons.1 hnd).1 kv hm
      simp only [lookupAttr, if_neg (Ne.symm (ne_of_lt hlt))]
      exact ih (List.pairwise_cons.1 hnd).2 kv hm

theorem RequestCounterKeys_sorted (intervals : AttrMap) (id : Str) (date : GoTime)
    (attrs : AttrMap) (hpw : List.Pairwise (fun a b : Str × Str => a.1 < b.1) attrs) :
    RequestCounterKeys intervals ⟨id, date, attrs⟩ =
      intervals.map (fun iv => iv.1 ++ KeySeperator :: (iv.2 ++ KeySeperator ::
        sepJoin KeySeperator (flattenPairs (attrs.map (fun kv => (kv.1, kv.2)))))) := by
  unfold RequestCounterKeys
  dsimp only
  have hsorted : List.Pairwise (· ≤ ·) (attrs.map Prod.fst) :=
    (List.pairwise_map).2 (hpw.imp le_of_lt)
  rw [List.Sorted.insertionSort_eq hsorted, List.map_map]
  have hpairs : attrs.map ((fun k => (k, lookupAttrD k attrs)) ∘ Prod.fst) =
      attrs.map (fun kv => (kv.1, kv.2)) := by
    apply List.map_congr_left
    intro kv hkv
    simp only [Function.comp_apply, lookupAttrD, lookupAttr_of_mem attrs hpw kv hkv,
      Option.getD_some]
  rw [hpairs]

theorem sepJoin_cons_cons (sep : Char) (s1 s2 : Str) (l : List Str) (hl : l ≠ []) :
    sepJoin sep (s1 :: s2 :: l) = s1 ++ sep :: (s2 ++ sep :: sepJoin sep l) := by
  cases l with
  | nil => exact absurd rfl hl
  | cons x xs => simp [sepJoin]

theorem flattenPairs_ne_nil (l : List (Str × Str)) (h : l ≠ []) : flattenPairs l ≠ [] := by
  cases l with
  | nil => exact absurd rfl h
  | cons kv rest => simp [flattenPairs]

theorem DateIntervals_day (t : GoTime) :
    DateIntervals DayInterval t = [(dayStr, formatYMD t.date)] := rfl

theorem DateIntervals_week (t : GoTime) :
    DateIntervals WeekInterval t =
      [(weekStr, formatYMD (timeAdd (-1 * 24 * 3600 * weekdayOfDate t.date) t).date)] := rfl

theorem DateIntervals_month (t : GoTime) :
    DateIntervals MonthInterval t = [(monthStr, formatYM t.date)] := rfl

theorem ParseKey_reconstruct (tag label : Str) (attrs : AttrMap) (d : GoTime)
    (htagsep : KeySeperator ∉ tag) (hlabelsep : KeySeperator ∉ label)
    (hattrs : attrs ≠ [])
    (hpw : List.Pairwise (fun a b : Str × Str => a.1 < b.1) attrs)
    (hsep : ∀ kv ∈ attrs, KeySeperator ∉ kv.1 ∧ KeySeperator ∉ kv.2)
    (hdate : parseIntervalDate tag label = .ok d) :
    ParseKey (tag ++ KeySeperator :: (label ++ KeySeperator ::
        sepJoin KeySeperator (flattenPairs attrs))) =
      .ok ⟨tag ++ KeySeperator :: (label ++ KeySeperator ::
        sepJoin KeySeperator (flattenPairs attrs)), tag, d, attrs, 0⟩ := by
  have hkey : tag ++ KeySeperator :: (label ++ KeySeperator ::
      sepJoin KeySeperator (flattenPairs attrs)) =
      sepJoin KeySeperator (tag :: label :: flattenPairs attrs) :=
    (sepJoin_cons_cons _ _ _ _ (flattenPairs_ne_nil attrs hattrs)).symm
  have hsplit : goSplit KeySeperator
      (sepJoin KeySeperator (tag :: label :: flattenPairs attrs)) =
      tag :: label :: flattenPairs attrs := by
    apply goSplit_sepJoin _ _ (by simp)
    intro p hp
    rcases List.mem_cons.1 hp with hp | hp
    · exact hp ▸ htagsep
    rcases List.mem_cons.1 hp with hp | hp
    · exact hp ▸ hlabelsep
    · intro hmem
      obtain ⟨kv, hkv, hx⟩ := (mem_flattenPairs attrs p).1 hp
      rcases hx with hx | hx
      · exact (hsep kv hkv).1 (hx ▸ hmem)
      · exact (hsep kv hkv).2 (hx ▸ hmem)
  have hlenf := length_flattenPairs attrs
  have hpos : 0 < attrs.length := List.length_pos.2 hattrs
  rw [hkey]
  unfold ParseKey
  rw [hsplit]
  dsimp only
  rw [if_neg (by omega), hdate]
  dsimp only
  rw [if_neg (by omega)]
  rw [pairUp_flattenPairs attrs [],
    foldl_insertAttr_of_sorted attrs [] hpw (fun a ha => absurd ha (List.not_mem_nil a)),
    List.nil_append]

/-- C7: for every valid parsed key — recognized interval, date at the
interval's anchor with a four-digit year, non-empty separator-free
canonical attributes — encoding through `DateIntervals` and
`RequestCounterKeys` yields one key, and `ParseKey` recovers the
interval, the date, and the full attribute map from it. -/
theorem parse_encode_roundtrip (P : ParsedKey) (hP : validParsedKey P) :
    ∃ k p, RequestCounterKeys (DateIntervals (maskFor P.interval) P.date)
        ⟨[], zeroTime, P.attributes⟩ = [k] ∧
      ParseKey k = .ok p ∧ p.interval = P.interval ∧ p.date = P.date ∧
      p.attributes = P.attributes := by
  obtain ⟨raw, itv, dte, attrs, cnt⟩ := P
  obtain ⟨ddate, dsec⟩ := dte
  obtain ⟨hint, hsec, hvc, hy0, hy1, hweek, hmonth, hne, hsorted, hsep⟩ := hP
  simp only at hint hsec hvc hy0 hy1 hweek hmonth hne hsorted hsep ⊢
  subst hsec
  have hchain : List.Chain' (fun a b : Str × Str => a.1 < b.1) attrs := hsorted
  have hpw : List.Pairwise (fun a b : Str × Str => a.1 < b.1) attrs :=
    (@List.chain'_iff_pairwise (Str × Str) (fun a b => a.1 < b.1)
      ⟨fun _ _ _ hab hbc => lt_trans hab hbc⟩ attrs).1 hchain
  have hetamap : attrs.map (fun kv => (kv.1, kv.2)) = attrs := by simp
  rcases hint with hd | hw | hm
  · subst hd
    rw [show maskFor dayStr = DayInterval from rfl, DateIntervals_day,
      RequestCounterKeys_sorted _ _ _ _ hpw, hetamap]
    simp only [List.map_cons, List.map_nil]
    refine ⟨dayStr ++ KeySeperator :: (formatYMD ddate ++ KeySeperator ::
        sepJoin KeySeperator (flattenPairs attrs)),
      ⟨dayStr ++ KeySeperator :: (formatYMD ddate ++ KeySeperator ::
        sepJoin KeySeperator (flattenPairs attrs)), dayStr, ⟨ddate, 0⟩, attrs, 0⟩,
      rfl, ?_, rfl, rfl, rfl⟩
    apply ParseKey_reconstruct dayStr (formatYMD ddate) attrs ⟨ddate, 0⟩ (by decide)
      (sep_not_mem_formatYMD ddate hvc hy0 hy1) hne hpw hsep
    simp [parseIntervalDate, parseYMD_formatYMD ddate hvc hy0 hy1]
  · subst hw
    have hw0 : weekdayOfDate ddate = 0 := hweek rfl
    rw [show maskFor weekStr = WeekInterval from rfl, DateIntervals_week]
    simp only
    rw [hw0]
    have htz : timeAdd (-1 * 24 * 3600 * 0) ⟨ddate, 0⟩ = ⟨ddate, 0⟩ := rfl
    rw [htz, RequestCounterKeys_sorted _ _ _ _ hpw, hetamap]
    simp only [List.map_cons, List.map_nil]
    refine ⟨weekStr ++ KeySeperator :: (formatYMD ddate ++ KeySeperator ::
        sepJoin KeySeperator (flattenPairs attrs)),
      ⟨weekStr ++ KeySeperator :: (formatYMD ddate ++ KeySeperator ::
        sepJoin KeySeperator (flattenPairs attrs)), weekStr, ⟨ddate, 0⟩, attrs, 0⟩,
      rfl, ?_, rfl, rfl, rfl⟩
    apply ParseKey_reconstruct weekStr (formatYMD ddate) attrs ⟨ddate, 0⟩ (by decide)
      (sep_not_mem_formatYMD ddate hvc hy0 hy1) hne hpw hsep
    simp [parseIntervalDate, parseYMD_formatYMD ddate hvc hy0 hy1]
  · subst hm
    rw [show maskFor monthStr = MonthInterval from rfl, DateIntervals_month,
      RequestCounterKeys_sorted _ _ _ _ hpw, hetamap]
    simp only [List.map_cons, List.map_nil]
    refine ⟨monthStr ++ KeySeperator :: (formatYM ddate ++ KeySeperator ::
        sepJoin KeySeperator (flattenPairs attrs)),
      ⟨monthStr ++ KeySeperator :: (formatYM ddate ++ KeySeperator ::
        sepJoin KeySeperator (flattenPairs attrs)), monthStr, ⟨ddate, 0⟩, attrs, 0⟩,
      rfl, ?_, rfl, rfl, rfl⟩
    apply ParseKey_reconstruct monthStr (formatYM ddate) attrs ⟨ddate, 0⟩ (by decide)
      (sep_not_mem_formatYM ddate hvc hy0 hy1) hne hpw hsep
    have hq1 : ¬ monthStr = dayStr := by decide
    have hq2 : ¬ monthStr = weekStr := by decide
    simp [parseIntervalDate, hq1, hq2, parseYM_formatYM ddate hvc hy0 hy1 (hmonth rfl)]

/-- Witness for C7 at the concrete parsed key
`day 2017-01-18 {foo: bar}`. -/
theorem parse_encode_roundtrip_witness :
    ∃ k p, RequestCounterKeys
        (DateIntervals (maskFor dayStr) ⟨⟨2017, 1, 18⟩, 0⟩)
        ⟨[], zeroTime, [(strOf "foo", strOf "bar")]⟩ = [k] ∧
      ParseKey k = .ok p ∧ p.interval = dayStr ∧ p.date = ⟨⟨2017, 1, 18⟩, 0⟩ ∧
      p.attributes = [(strOf "foo", strOf "bar")] :=
  parse_encode_roundtrip
    ⟨strOf "day:2017-01-18:foo:bar", dayStr, ⟨⟨2017, 1, 18⟩, 0⟩, [(strOf "foo", strOf "bar")], 0⟩
    ⟨Or.inl rfl, rfl, by decide, by decide, by decide, fun h => absurd h (by decide),
      fun h => absurd h (by decide), by decide, List.chain'_singleton _, by decide⟩
